import Mathlib

set_option maxRecDepth 100000

/-!
A shallow embedding of the brightness-mapping engine of the Lightener
integration (custom_components/lightener/light.py), together with proofs of
the specified properties of the mapping pipeline: range preparation,
forward map construction, reverse (multi-valued) map construction, the
on/off degeneration, and the turn-on dispatch behaviour.

Machine integers are modelled as Int; Python round() is modelled as exact
rational rounding half-to-even (all intermediate values in the source fit
IEEE doubles with more than enough slack for the two roundings to agree).
Python dicts are modelled as insertion-ordered association lists with unique
keys, matching Python 3.7+ semantics.
-/

/-- Round-half-to-even of the exact rational num/den for den > 0, via floor
division and remainder. -/
def pyRoundPos (num den : Int) : Int :=
  if 2 * Int.emod num den < den then Int.ediv num den
  else if den < 2 * Int.emod num den then Int.ediv num den + 1
  else if Int.emod (Int.ediv num den) 2 = 0 then Int.ediv num den
  else Int.ediv num den + 1

/-- Python round() applied to the exact rational num/den (den ≠ 0): round half
to even, normalising the sign of the denominator. -/
def pyRound (num den : Int) : Int :=
  if den < 0 then pyRoundPos (-num) (-den) else pyRoundPos num den

/-- Embeds scale_ranged_value_to_int_range of light.py:
round(c + ((value - a) * (d - c)) / (b - a)) over an exact common
denominator b - a. -/
def scale_ranged_value_to_int_range (source_range target_range : Int × Int)
    (value : Int) : Int :=
  let a := source_range.1
  let b := source_range.2
  let c := target_range.1
  let d := target_range.2
  pyRound (c * (b - a) + (value - a) * (d - c)) (b - a)

/-- Embeds homeassistant.util.percentage.states_in_range. -/
def states_in_range (r : Int × Int) : Int := r.2 - r.1 + 1

/-- Embeds homeassistant.util.color.value_to_brightness (external dependency
used by light.py): round(scale_to_ranged_value(low_high_range, (1, 255),
value)), where scale_to_ranged_value shifts by the source offset low - 1 and
rescales by the ratio of states in the two ranges. -/
def value_to_brightness (r : Int × Int) (value : Int) : Int :=
  pyRound ((value - (r.1 - 1)) * states_in_range (1, 255)) (states_in_range r)

/-- Python dict .get and [] read access on the association-list model (keys
are unique at every use site). -/
def dictGet (m : List (Int × Int)) (k : Int) : Option Int :=
  match m with
  | [] => none
  | p :: t => if p.1 = k then some p.2 else dictGet t k

/-- Python d[k] = v on an insertion-ordered association list with unique keys:
update in place when the key exists, append otherwise. -/
def dictInsert (m : List (Int × Int)) (k v : Int) : List (Int × Int) :=
  if m.any (fun p => p.1 == k) then m.map (fun p => if p.1 = k then (k, v) else p)
  else m ++ [(k, v)]

/-- Python d.setdefault(k, v). -/
def dictSetdefault (m : List (Int × Int)) (k v : Int) : List (Int × Int) :=
  if m.any (fun p => p.1 == k) then m else m ++ [(k, v)]

/-- Embeds translate_config_to_brightness of light.py: a dict comprehension
over the configured (virtual percent, physical percent) entries, scaling both
to the brightness domain, with physical 0 kept at 0. -/
def translate_config_to_brightness (config : List (Int × Int)) : List (Int × Int) :=
  config.foldl
    (fun acc p =>
      dictInsert acc (value_to_brightness (1, 100) p.1)
        (if p.2 = 0 then 0 else value_to_brightness (1, 100) p.2))
    []

/-- Ascending lexicographic order on pairs, as used by Python sorted() on
tuples. At the single call site the keys are unique, so any sort algorithm
produces the same list; we use insertion sort. -/
def pairLE (p q : Int × Int) : Prop :=
  p.1 < q.1 ∨ (p.1 = q.1 ∧ p.2 ≤ q.2)

instance : DecidableRel pairLE := fun p q => by unfold pairLE; infer_instance

/-- Embeds prepare_brightness_config of light.py: scale the configuration,
force the (0, 0) anchor, default the 255 endpoint, and sort by virtual
level. -/
def prepare_brightness_config (config : List (Int × Int)) : List (Int × Int) :=
  let c1 := translate_config_to_brightness config
  let c2 := dictInsert c1 0 0
  let c3 := dictSetdefault c2 255 255
  List.insertionSort pairLE c3

/-- Helper for Python range: n consecutive integers counting up from a. -/
def intRangeAux (a : Int) : Nat → List Int
  | 0 => []
  | n + 1 => a :: intRangeAux (a + 1) n

/-- Python range(a, b) over integers. -/
def intRange (a b : Int) : List Int := intRangeAux a (b - a).toNat

/-- Embeds create_brightness_map of light.py: seed {0: 0}, then for every
consecutive breakpoint pair fill the half-open virtual segment by linear
interpolation. -/
def create_brightness_map (config : List (Int × Int)) : List (Int × Int) :=
  (config.zip config.tail).foldl
    (fun m pq =>
      (intRange (pq.1.1 + 1) (pq.2.1 + 1)).foldl
        (fun acc j =>
          dictInsert acc j
            (scale_ranged_value_to_int_range (pq.1.1, pq.2.1) (pq.1.2, pq.2.2) j))
        m)
    [(0, 0)]

/-- reverse_brightness_map[key].append(val) on a dict with a fixed key set,
modelled pointwise. The source raises KeyError outside the initialised key
set; the construction only ever touches initialised keys, so the none branch
models unreachable code. -/
def revAppend (m : Int → Option (List Int)) (key val : Int) :
    Int → Option (List Int) :=
  fun x => if x = key then (m key).map (fun l => l ++ [val]) else m x

/-- The guarded append of create_reverse_brightness_map: append val to the
list at key only when it is not already present. -/
def revAppendIfAbsent (m : Int → Option (List Int)) (key val : Int) :
    Int → Option (List Int) :=
  fun x =>
    if x = key then (m key).map (fun l => if val ∈ l then l else l ++ [val])
    else m x

/-- Python range(start, stop, step) for step = 1 or step = -1. -/
def pyRangeDir (start stop step : Int) : List Int :=
  if step = 1 then intRange start stop
  else (List.range (start - stop).toNat).map (fun n => start - n)

/-- Embeds create_reverse_brightness_map of light.py: initialise every entity
level 0..255 with an empty list, seed backward[forward[k]] with k for every
forward entry, then walk the physical axis of every non-constant segment in
the configured direction, appending the interpolated virtual level where not
yet present. -/
def create_reverse_brightness_map (config : List (Int × Int))
    (lightener_levels : List (Int × Int)) : Int → Option (List Int) :=
  let m0 : Int → Option (List Int) := fun i => if 0 ≤ i ∧ i < 256 then some [] else none
  let m1 := lightener_levels.foldl (fun m kv => revAppend m kv.2 kv.1) m0
  (config.zip config.tail).foldl
    (fun m pq =>
      if pq.1.2 ≠ pq.2.2 then
        let order : Int := if pq.1.2 < pq.2.2 then 1 else -1
        (pyRangeDir pq.1.2 (pq.2.2 + order) order).foldl
          (fun acc j =>
            revAppendIfAbsent acc j
              (scale_ranged_value_to_int_range (pq.1.2, pq.2.2) (pq.1.1, pq.2.1) j))
          m
      else m)
    m1

/-- Embeds create_reverse_brightness_map_on_off of light.py: levels 1..255 all
map to the fixed list of virtual levels not associated with entity level 0,
and level 0 keeps its reverse entry. -/
def create_reverse_brightness_map_on_off (reverse_map : Int → Option (List Int)) :
    Int → Option (List Int) :=
  let on_levels :=
    (intRange 1 256).filter (fun i => !(decide (i ∈ (reverse_map 0).getD [])))
  fun x =>
    if x = 0 then reverse_map 0
    else if 1 ≤ x ∧ x < 256 then some on_levels else none

/-- const.py is not among the sources; modelled from the spec: the light-type
marker for binary (on/off only) targets. Only the identity of the constant
matters. -/
def TYPE_ONOFF : String := "onoff"

/-- const.py is not among the sources; modelled from the spec: the light-type
marker for brightness-capable targets. -/
def TYPE_DIMMABLE : String := "dimmable"

def SERVICE_TURN_ON : String := "turn_on"

def SERVICE_TURN_OFF : String := "turn_off"

/-- Embeds LightenerControlledLight of light.py. The Python type property
queries the host state machine for the target capabilities; it is modelled as
the field lightType (none when the host raises). -/
structure LightenerControlledLight where
  entity_id : String
  lightType : Option String
  levels : List (Int × Int)
  to_lightener_levels : Int → Option (List Int)
  to_lightener_levels_on_off : Int → Option (List Int)

/-- Embeds LightenerControlledLight.__init__: build the three lookup tables
from the brightness configuration. -/
def mkControlledLight (entity_id : String) (brightness_config : List (Int × Int))
    (lightType : Option String) : LightenerControlledLight :=
  let bc := prepare_brightness_config brightness_config
  let levels := create_brightness_map bc
  { entity_id := entity_id
    lightType := lightType
    levels := levels
    to_lightener_levels := create_reverse_brightness_map bc levels
    to_lightener_levels_on_off :=
      create_reverse_brightness_map_on_off (create_reverse_brightness_map bc levels) }

/-- Embeds LightenerControlledLight.translate_brightness: dict .get on the
forward map, degenerated to 0 or 255 for an on/off target. -/
def translate_brightness (e : LightenerControlledLight) (brightness : Int) :
    Option Int :=
  let level := dictGet e.levels brightness
  if e.lightType = some TYPE_ONOFF then some (if level = some 0 then 0 else 255)
  else level

/-- Embeds LightenerControlledLight.translate_brightness_back: the empty list
for an unknown (None) physical state, otherwise the reverse lookup, using the
on/off table for binary targets. -/
def translate_brightness_back (e : LightenerControlledLight)
    (brightness : Option Int) : Option (List Int) :=
  match brightness with
  | none => some []
  | some b =>
    if e.lightType = some TYPE_ONOFF then e.to_lightener_levels_on_off b
    else e.to_lightener_levels b

/-! ### Turn-on dispatch model (LightenerLight.async_turn_on) -/

/-- The payload assembled by async_turn_on before the per-entity loop: the
forwarded attributes, with brightness and transition tracked explicitly and
the remaining forwarded attributes kept abstract. -/
structure TurnOnData where
  brightness : Option Int
  transition : Option Int
  others : List (String × Int)
deriving DecidableEq

/-- One outbound service call as issued by the dispatch loop. -/
structure ServiceCall where
  service : String
  brightness : Option Int
  transition : Option Int
  others : List (String × Int)
  entity_id : String
deriving DecidableEq

/-- Embeds the per-entity body of LightenerLight.async_turn_on: translate the
brightness, switch to the turn_off service (forwarding only the transition)
when the translated level is 0, otherwise forward the data with the
translated brightness set. -/
def dispatch_for_entity (e : LightenerControlledLight) (brightness : Option Int)
    (data : TurnOnData) : ServiceCall :=
  let entity_brightness : Option Int :=
    match brightness with
    | some b => translate_brightness e b
    | none => none
  if entity_brightness = some 0 then
    { service := SERVICE_TURN_OFF
      brightness := none
      transition := data.transition
      others := []
      entity_id := e.entity_id }
  else
    { service := SERVICE_TURN_ON
      brightness := match brightness with | some _ => entity_brightness | none => data.brightness
      transition := data.transition
      others := data.others
      entity_id := e.entity_id }

/-- Embeds the loop of LightenerLight.async_turn_on over the controlled
lights: one sequential blocking service call per entity, with no exception
handling around the calls, so a raised error propagates and exits the loop.
Returns the entity ids whose call was made and the escaping error, if any. -/
def turn_on_dispatch_loop (call : String → Except String Unit) :
    List String → List String × Option String
  | [] => ([], none)
  | id :: rest =>
    match call id with
    | Except.error e => ([id], some e)
    | Except.ok _ =>
      let r := turn_on_dispatch_loop call rest
      (id :: r.1, r.2)

/-- The failure scenario of the repository test
test_turn_on_resilient_to_single_failure: the first light raises. -/
def boomCall : String → Except String Unit :=
  fun id => if id = "light.test1" then Except.error "boom" else Except.ok ()

/-! ### Proof-layer definitions -/

/-- A brightness configuration as guaranteed by the upstream schema
validation (ENTITY_SCHEMA): integer percent keys 1..100, integer percent
values 0..100, unique keys (the configuration is a Python dict). -/
def ValidConfig (config : List (Int × Int)) : Prop :=
  (∀ p ∈ config, 1 ≤ p.1 ∧ p.1 ≤ 100 ∧ 0 ≤ p.2 ∧ p.2 ≤ 100) ∧
  (config.map Prod.fst).Nodup

instance (config : List (Int × Int)) : Decidable (ValidConfig config) := by
  unfold ValidConfig
  infer_instance

/-- The entry-wise scaling performed by the dict comprehension of
translate_config_to_brightness. -/
def scaleEntry (p : Int × Int) : Int × Int :=
  (value_to_brightness (1, 100) p.1,
   if p.2 = 0 then 0 else value_to_brightness (1, 100) p.2)

/-- Normal form of the forward map body: the interpolated entries of every
consecutive segment, in construction order. -/
def forwardBlocks : List (Int × Int) → List (Int × Int)
  | [] => []
  | [_] => []
  | p :: q :: rest =>
      (intRange (p.1 + 1) (q.1 + 1)).map
        (fun j => (j, scale_ranged_value_to_int_range (p.1, q.1) (p.2, q.2) j))
        ++ forwardBlocks (q :: rest)

/-- Pointwise growth of a reverse map: no association is ever removed. -/
def listGrows (m m2 : Int → Option (List Int)) : Prop :=
  ∀ x a, a ∈ (m x).getD [] → a ∈ (m2 x).getD []

/-- The percent-to-brightness scaling formula exactly as the specification
words it: round((255 - 1) * (x - 1) / (100 - 1) + 1), i.e. linear scaling of
the source range (1,100) onto the target range (1,255) by endpoints, over the
common denominator 99. -/
def specScaledValue (x : Int) : Int :=
  pyRound ((255 - 1) * (x - 1) + 1 * (100 - 1)) (100 - 1)

/-- The invariants guaranteed for the output of prepare_brightness_config on
a schema-valid configuration. -/
structure PreparedFacts (S : List (Int × Int)) : Prop where
  pairwise : List.Pairwise (fun p q : Int × Int => p.1 < q.1) S
  mem_zero : (0, 0) ∈ S
  mem_top : ∃ y, (255, y) ∈ S
  key_lb : ∀ p ∈ S, 0 ≤ p.1
  key_ub : ∀ p ∈ S, p.1 ≤ 255
  val_lb : ∀ p ∈ S, 0 ≤ p.2
  val_ub : ∀ p ∈ S, p.2 ≤ 255

instance : IsTotal (Int × Int) pairLE :=
  ⟨by intro a b; unfold pairLE; omega⟩

instance : IsTrans (Int × Int) pairLE :=
  ⟨by intro a b c hab hbc; unfold pairLE at *; omega⟩

/-! ### Rounding lemmas -/

theorem pyRoundPos_bounds (num den : Int) (hd : 0 < den) :
    2 * num - den ≤ 2 * (den * pyRoundPos num den) ∧
    2 * (den * pyRoundPos num den) ≤ 2 * num + den := by
  have hne : den ≠ 0 := ne_of_gt hd
  have h0 : 0 ≤ Int.emod num den := Int.emod_nonneg num hne
  have h1 : Int.emod num den < den := Int.emod_lt_of_pos num hd
  have h2 : den * Int.ediv num den + Int.emod num den = num := Int.ediv_add_emod num den
  unfold pyRoundPos
  split_ifs with ha hb hc
  · constructor <;> linarith
  · constructor <;> nlinarith
  · constructor <;> linarith
  · constructor <;> nlinarith

theorem pyRound_of_pos (num den : Int) (hd : 0 < den) :
    pyRound num den = pyRoundPos num den := by
  unfold pyRound
  rw [if_neg (by omega)]

theorem pyRound_bounds (num den : Int) (hd : 0 < den) :
    2 * num - den ≤ 2 * (den * pyRound num den) ∧
    2 * (den * pyRound num den) ≤ 2 * num + den := by
  rw [pyRound_of_pos num den hd]
  exact pyRoundPos_bounds num den hd

theorem pyRound_exact (x den : Int) (hd : 0 < den) : pyRound (den * x) den = x := by
  rw [pyRound_of_pos _ _ hd]
  unfold pyRoundPos
  have h1 : Int.emod (den * x) den = 0 := Int.mul_emod_right den x
  have h2 : Int.ediv (den * x) den = x :=
    Int.mul_ediv_cancel_left x (ne_of_gt hd)
  rw [h1, h2]
  simp [hd]

theorem pyRound_lt_of_gap (n n2 den : Int) (hd : 0 < den) (h : n + den < n2) :
    pyRound n den < pyRound n2 den := by
  obtain ⟨h1, h2⟩ := pyRound_bounds n den hd
  obtain ⟨h3, h4⟩ := pyRound_bounds n2 den hd
  by_contra hle
  push_neg at hle
  have hmul : den * pyRound n2 den ≤ den * pyRound n den :=
    mul_le_mul_of_nonneg_left hle (le_of_lt hd)
  linarith

theorem pyRound_mem_range (num den lo hi : Int) (hd : 0 < den)
    (hlo : den * lo ≤ num) (hhi : num ≤ den * hi) :
    lo ≤ pyRound num den ∧ pyRound num den ≤ hi := by
  obtain ⟨h1, h2⟩ := pyRound_bounds num den hd
  constructor
  · by_contra h
    push_neg at h
    have hle : pyRound num den ≤ lo - 1 := by omega
    have hmul : den * pyRound num den ≤ den * (lo - 1) :=
      mul_le_mul_of_nonneg_left hle (le_of_lt hd)
    nlinarith
  · by_contra h
    push_neg at h
    have hle : hi + 1 ≤ pyRound num den := by omega
    have hmul : den * (hi + 1) ≤ den * pyRound num den :=
      mul_le_mul_of_nonneg_left hle (le_of_lt hd)
    nlinarith

/-! ### Scaling lemmas -/

theorem value_to_brightness_eq (v : Int) :
    value_to_brightness (1, 100) v = pyRound (255 * v) 100 := by
  unfold value_to_brightness states_in_range
  norm_num [mul_comm]

theorem value_to_brightness_lb (v : Int) (h : 1 ≤ v) :
    3 ≤ value_to_brightness (1, 100) v := by
  rw [value_to_brightness_eq]
  obtain ⟨h1, h2⟩ := pyRound_bounds (255 * v) 100 (by norm_num)
  set x := pyRound (255 * v) 100 with hx
  omega

theorem value_to_brightness_ub (v : Int) (h : v ≤ 100) :
    value_to_brightness (1, 100) v ≤ 255 := by
  rw [value_to_brightness_eq]
  obtain ⟨h1, h2⟩ := pyRound_bounds (255 * v) 100 (by norm_num)
  set x := pyRound (255 * v) 100 with hx
  omega

theorem value_to_brightness_strictMono (v w : Int) (h : v < w) :
    value_to_brightness (1, 100) v < value_to_brightness (1, 100) w := by
  rw [value_to_brightness_eq, value_to_brightness_eq]
  apply pyRound_lt_of_gap _ _ _ (by norm_num)
  omega

theorem scale_bounds (v0 v1 p0 p1 j : Int) (hv : v0 < v1) (hj0 : v0 < j)
    (hj1 : j ≤ v1) (hp0 : 0 ≤ p0) (hp0u : p0 ≤ 255) (hp1 : 0 ≤ p1)
    (hp1u : p1 ≤ 255) :
    0 ≤ scale_ranged_value_to_int_range (v0, v1) (p0, p1) j ∧
    scale_ranged_value_to_int_range (v0, v1) (p0, p1) j ≤ 255 := by
  unfold scale_ranged_value_to_int_range
  have hden : (0 : Int) < v1 - v0 := by omega
  apply pyRound_mem_range _ _ _ _ hden
  · rcases le_or_lt p0 p1 with hc | hc
    · nlinarith [mul_nonneg (by omega : (0:Int) ≤ j - v0) (by omega : (0:Int) ≤ p1 - p0),
        mul_nonneg hp0 (le_of_lt hden)]
    · nlinarith [mul_nonneg (by omega : (0:Int) ≤ v1 - j) (by omega : (0:Int) ≤ p0 - p1),
        mul_nonneg hp1 (le_of_lt hden)]
  · rcases le_or_lt p0 p1 with hc | hc
    · nlinarith [mul_nonneg (by omega : (0:Int) ≤ v1 - j) (by omega : (0:Int) ≤ p1 - p0),
        mul_le_mul_of_nonneg_left hp1u (le_of_lt hden)]
    · nlinarith [mul_nonneg (by omega : (0:Int) ≤ j - v0) (by omega : (0:Int) ≤ p0 - p1),
        mul_le_mul_of_nonneg_left hp0u (le_of_lt hden)]

theorem scale_right_endpoint (v0 v1 p0 p1 : Int) (hv : v0 < v1) :
    scale_ranged_value_to_int_range (v0, v1) (p0, p1) v1 = p1 := by
  unfold scale_ranged_value_to_int_range
  have h : p0 * (v1 - v0) + (v1 - v0) * (p1 - p0) = (v1 - v0) * p1 := by ring
  simp only []
  rw [show p0 * (v1 - v0) + (v1 - v0) * (p1 - p0) = (v1 - v0) * p1 from h]
  exact pyRound_exact p1 (v1 - v0) (by omega)

/-! ### Association-list and range lemmas -/

theorem dictGet_mem {m : List (Int × Int)} {k v : Int}
    (h : dictGet m k = some v) : (k, v) ∈ m := by
  induction m with
  | nil => simp [dictGet] at h
  | cons p t ih =>
    obtain ⟨p1, p2⟩ := p
    rw [dictGet] at h
    split_ifs at h with hk
    · simp at hk
      injection h with h2
      subst hk
      subst h2
      exact List.mem_cons_self _ _
    · exact List.mem_cons_of_mem _ (ih h)

theorem dictGet_append_left {m1 m2 : List (Int × Int)} {k v : Int}
    (h : dictGet m1 k = some v) : dictGet (m1 ++ m2) k = some v := by
  induction m1 with
  | nil => simp [dictGet] at h
  | cons p t ih =>
    rw [dictGet] at h
    rw [List.cons_append, dictGet]
    split_ifs at h ⊢ with hk
    · exact h
    · exact ih h

theorem dictGet_append_right {m1 m2 : List (Int × Int)} {k : Int}
    (h : dictGet m1 k = none) : dictGet (m1 ++ m2) k = dictGet m2 k := by
  induction m1 with
  | nil => simp
  | cons p t ih =>
    rw [dictGet] at h
    rw [List.cons_append, dictGet]
    split_ifs at h ⊢ with hk
    · exact ih h

theorem dictGet_eq_none {m : List (Int × Int)} {k : Int}
    (h : ∀ p ∈ m, p.1 ≠ k) : dictGet m k = none := by
  induction m with
  | nil => rfl
  | cons p t ih =>
    rw [dictGet]
    rw [if_neg (h p (List.mem_cons_self _ _))]
    exact ih (fun q hq => h q (List.mem_cons_of_mem _ hq))

theorem dictInsert_append (m : List (Int × Int)) (k v : Int)
    (h : ∀ p ∈ m, p.1 ≠ k) : dictInsert m k v = m ++ [(k, v)] := by
  unfold dictInsert
  rw [if_neg]
  simp only [List.any_eq_true, beq_iff_eq]
  push_neg
  exact h

theorem mem_dictSetdefault {m : List (Int × Int)} {k v : Int} {p : Int × Int}
    (h : p ∈ dictSetdefault m k v) : p ∈ m ∨ p = (k, v) := by
  unfold dictSetdefault at h
  split_ifs at h
  · exact Or.inl h
  · rcases List.mem_append.1 h with h1 | h1
    · exact Or.inl h1
    · simp at h1
      exact Or.inr (by simp [h1])

theorem subset_dictSetdefault (m : List (Int × Int)) (k v : Int) :
    ∀ p ∈ m, p ∈ dictSetdefault m k v := by
  intro p h
  unfold dictSetdefault
  split_ifs
  · exact h
  · exact List.mem_append.2 (Or.inl h)

theorem dictSetdefault_of_not_mem (m : List (Int × Int)) (k v : Int)
    (h : ∀ p ∈ m, p.1 ≠ k) : dictSetdefault m k v = m ++ [(k, v)] := by
  unfold dictSetdefault
  rw [if_neg]
  simp only [List.any_eq_true, beq_iff_eq]
  push_neg
  exact h

theorem foldl_dictInsert_eq_append :
    ∀ (l acc : List (Int × Int)),
      (∀ p ∈ l, ∀ q ∈ acc, q.1 ≠ p.1) →
      (l.map Prod.fst).Nodup →
      l.foldl (fun m p => dictInsert m p.1 p.2) acc = acc ++ l := by
  intro l
  induction l with
  | nil => intro acc _ _; simp
  | cons p t ih =>
    intro acc hfresh hnodup
    rw [List.foldl_cons,
      dictInsert_append acc p.1 p.2 (fun q hq => hfresh p (List.mem_cons_self _ _) q hq),
      Prod.mk.eta]
    rw [List.map_cons, List.nodup_cons] at hnodup
    rw [ih (acc ++ [p]) ?fresh hnodup.2]
    · simp
    case fresh =>
      intro x hx q hq
      rcases List.mem_append.1 hq with h1 | h1
      · exact hfresh x (List.mem_cons_of_mem _ hx) q h1
      · simp at h1
        subst h1
        intro hcon
        exact hnodup.1 (hcon ▸ List.mem_map_of_mem Prod.fst hx)

theorem intRange_eq_nil {a b : Int} (h : b ≤ a) : intRange a b = [] := by
  unfold intRange
  have : (b - a).toNat = 0 := by omega
  rw [this]
  rfl

theorem intRange_cons {a b : Int} (h : a < b) :
    intRange a b = a :: intRange (a + 1) b := by
  unfold intRange
  have h1 : (b - a).toNat = (b - (a + 1)).toNat + 1 := by omega
  rw [h1]
  rfl

theorem mem_intRangeAux {j : Int} : ∀ (n : Nat) (a : Int),
    (j ∈ intRangeAux a n ↔ a ≤ j ∧ j < a + n) := by
  intro n
  induction n with
  | zero => intro a; simp [intRangeAux]
  | succ n ih =>
    intro a
    rw [intRangeAux, List.mem_cons, ih (a + 1)]
    push_cast
    omega

theorem mem_intRange {a b j : Int} : j ∈ intRange a b ↔ a ≤ j ∧ j < b := by
  unfold intRange
  rw [mem_intRangeAux]
  omega

/-! ### Structure of the prepared configuration -/

theorem scaled_keys_nodup (config : List (Int × Int)) (h : ValidConfig config) :
    ((config.map scaleEntry).map Prod.fst).Nodup := by
  have heq : (config.map scaleEntry).map Prod.fst
      = (config.map Prod.fst).map (fun k => value_to_brightness (1, 100) k) := by
    rw [List.map_map, List.map_map]
    rfl
  rw [heq]
  apply List.Nodup.map_on ?inj h.2
  case inj =>
    intro x _ y _ hxy
    by_contra hne
    rcases lt_or_gt_of_ne hne with hlt | hlt
    · exact absurd hxy (ne_of_lt (value_to_brightness_strictMono x y hlt))
    · exact absurd hxy.symm (ne_of_lt (value_to_brightness_strictMono y x hlt))

theorem scaleEntry_key_bounds (p : Int × Int) (h1 : 1 ≤ p.1) (h2 : p.1 ≤ 100) :
    3 ≤ (scaleEntry p).1 ∧ (scaleEntry p).1 ≤ 255 :=
  ⟨value_to_brightness_lb p.1 h1, value_to_brightness_ub p.1 h2⟩

theorem scaleEntry_val_bounds (p : Int × Int) (h1 : 0 ≤ p.2) (h2 : p.2 ≤ 100) :
    0 ≤ (scaleEntry p).2 ∧ (scaleEntry p).2 ≤ 255 := by
  by_cases h0 : p.2 = 0
  · simp [scaleEntry, h0]
  · have hlb := value_to_brightness_lb p.2 (by omega)
    have hub := value_to_brightness_ub p.2 h2
    simp only [scaleEntry, if_neg h0]
    omega

theorem translate_config_eq_map (config : List (Int × Int))
    (h : ((config.map scaleEntry).map Prod.fst).Nodup) :
    translate_config_to_brightness config = config.map scaleEntry := by
  have h2 : translate_config_to_brightness config
      = (config.map scaleEntry).foldl (fun m p => dictInsert m p.1 p.2) [] := by
    rw [List.foldl_map]
    rfl
  rw [h2, foldl_dictInsert_eq_append (config.map scaleEntry) [] (by simp) h]
  simp

theorem prepare_eq_sort (config : List (Int × Int)) (h : ValidConfig config) :
    prepare_brightness_config config
      = List.insertionSort pairLE
          (dictSetdefault (config.map scaleEntry ++ [(0, 0)]) 255 255) := by
  show List.insertionSort pairLE
      (dictSetdefault (dictInsert (translate_config_to_brightness config) 0 0) 255 255)
    = _
  rw [translate_config_eq_map config (scaled_keys_nodup config h)]
  rw [dictInsert_append _ 0 0 ?h0]
  case h0 =>
    intro p hp
    obtain ⟨q, hq, rfl⟩ := List.mem_map.1 hp
    have := value_to_brightness_lb q.1 (h.1 q hq).1
    simp only [scaleEntry]
    omega

theorem prepared_facts (config : List (Int × Int)) (h : ValidConfig config) :
    PreparedFacts (prepare_brightness_config config) := by
  have hprep := prepare_eq_sort config h
  set M : List (Int × Int) := config.map scaleEntry ++ [(0, 0)] with hM
  set L : List (Int × Int) := dictSetdefault M 255 255 with hL
  have hMelem : ∀ p ∈ M, ((3 ≤ p.1 ∧ p.1 ≤ 255) ∨ p = (0, 0)) ∧
      (0 ≤ p.2 ∧ p.2 ≤ 255) := by
    intro p hp
    rcases List.mem_append.1 hp with h1 | h1
    · obtain ⟨q, hq, rfl⟩ := List.mem_map.1 h1
      obtain ⟨hk1, hk2, hv1, hv2⟩ := h.1 q hq
      exact ⟨Or.inl (scaleEntry_key_bounds q hk1 hk2), scaleEntry_val_bounds q hv1 hv2⟩
    · simp at h1
      subst h1
      norm_num
  have hLelem : ∀ p ∈ L, (0 ≤ p.1 ∧ p.1 ≤ 255) ∧ (0 ≤ p.2 ∧ p.2 ≤ 255) := by
    intro p hp
    rcases mem_dictSetdefault hp with h1 | h1
    · obtain ⟨hk, hv⟩ := hMelem p h1
      rcases hk with h2 | h2
      · exact ⟨⟨by omega, h2.2⟩, hv⟩
      · subst h2
        norm_num
    · subst h1
      norm_num
  have hMnodup : (M.map Prod.fst).Nodup := by
    rw [hM, List.map_append, List.nodup_append]
    refine ⟨scaled_keys_nodup config h, by simp, ?_⟩
    intro a ha hb
    simp at hb
    subst hb
    obtain ⟨q, hq, hq0⟩ := List.mem_map.1 ha
    obtain ⟨r, hr, rfl⟩ := List.mem_map.1 hq
    have := value_to_brightness_lb r.1 (h.1 r hr).1
    have : (scaleEntry r).1 = 0 := hq0
    simp only [scaleEntry] at this
    omega
  have hLnodup : (L.map Prod.fst).Nodup := by
    rw [hL]
    unfold dictSetdefault
    split_ifs with hc
    · exact hMnodup
    · rw [List.map_append, List.nodup_append]
      refine ⟨hMnodup, by simp, ?_⟩
      intro a ha hb
      simp at hb
      subst hb
      simp only [List.any_eq_true, beq_iff_eq] at hc
      push_neg at hc
      obtain ⟨q, hq, hq255⟩ := List.mem_map.1 ha
      exact hc q hq hq255
  have hmem0 : (0, 0) ∈ L :=
    subset_dictSetdefault M 255 255 (0, 0) (List.mem_append.2 (Or.inr (by simp)))
  have hmemtop : ∃ y, (255, y) ∈ L := by
    by_cases hc : ∃ p ∈ M, p.1 = 255
    · obtain ⟨p, hp, hp255⟩ := hc
      refine ⟨p.2, ?_⟩
      have : (255, p.2) = p := by
        rw [← hp255]
      rw [this]
      exact subset_dictSetdefault M 255 255 p hp
    · push_neg at hc
      rw [hL, dictSetdefault_of_not_mem M 255 255 hc]
      exact ⟨255, List.mem_append.2 (Or.inr (by simp))⟩
  have hperm : List.Perm (List.insertionSort pairLE L) L :=
    List.perm_insertionSort pairLE L
  have hSnodup : ((List.insertionSort pairLE L).map Prod.fst).Nodup :=
    ((hperm.map Prod.fst).nodup_iff).2 hLnodup
  have hsorted : List.Pairwise pairLE (List.insertionSort pairLE L) :=
    List.sorted_insertionSort pairLE L
  have hne : List.Pairwise (fun p q : Int × Int => p.1 ≠ q.1)
      (List.insertionSort pairLE L) := by
    have := hSnodup
    rw [List.Nodup, List.pairwise_map] at this
    exact this
  have hpairwise : List.Pairwise (fun p q : Int × Int => p.1 < q.1)
      (List.insertionSort pairLE L) := by
    refine (hsorted.and hne).imp ?_
    intro a b hab
    obtain ⟨h1, h2⟩ := hab
    unfold pairLE at h1
    omega
  rw [hprep]
  refine ⟨hpairwise, hperm.mem_iff.2 hmem0, ?_, ?_, ?_, ?_, ?_⟩
  · obtain ⟨y, hy⟩ := hmemtop
    exact ⟨y, hperm.mem_iff.2 hy⟩
  · intro p hp
    exact (hLelem p (hperm.mem_iff.1 hp)).1.1
  · intro p hp
    exact (hLelem p (hperm.mem_iff.1 hp)).1.2
  · intro p hp
    exact (hLelem p (hperm.mem_iff.1 hp)).2.1
  · intro p hp
    exact (hLelem p (hperm.mem_iff.1 hp)).2.2

theorem prepared_default_top (config : List (Int × Int)) (h : ValidConfig config)
    (habs : ∀ p ∈ config, value_to_brightness (1, 100) p.1 ≠ 255) :
    (255, 255) ∈ prepare_brightness_config config := by
  rw [prepare_eq_sort config h]
  rw [(List.perm_insertionSort pairLE _).mem_iff]
  rw [dictSetdefault_of_not_mem]
  · exact List.mem_append.2 (Or.inr (by simp))
  · intro p hp
    rcases List.mem_append.1 hp with h1 | h1
    · obtain ⟨q, hq, rfl⟩ := List.mem_map.1 h1
      exact habs q hq
    · simp at h1
      subst h1
      norm_num

/-! ### Forward map: normal form and lookups -/

theorem dictGet_nil (k : Int) : dictGet [] k = none := rfl

theorem dictGet_cons (k0 v0 k : Int) (t : List (Int × Int)) :
    dictGet ((k0, v0) :: t) k = if k0 = k then some v0 else dictGet t k := rfl

theorem mem_zip_fst :
    ∀ {l1 l2 : List (Int × Int)} {pq : (Int × Int) × (Int × Int)},
      pq ∈ l1.zip l2 → pq.1 ∈ l1 ∧ pq.2 ∈ l2 := by
  intro l1
  induction l1 with
  | nil => intro l2 pq h; simp at h
  | cons a t ih =>
    intro l2 pq h
    cases l2 with
    | nil => simp at h
    | cons b t2 =>
      rw [List.zip_cons_cons, List.mem_cons] at h
      rcases h with rfl | h
      · exact ⟨List.mem_cons_self _ _, List.mem_cons_self _ _⟩
      · obtain ⟨h1, h2⟩ := ih h
        exact ⟨List.mem_cons_of_mem _ h1, List.mem_cons_of_mem _ h2⟩

theorem zip_tail_mem {S : List (Int × Int)} {pq : (Int × Int) × (Int × Int)}
    (h : pq ∈ S.zip S.tail) : pq.1 ∈ S ∧ pq.2 ∈ S := by
  obtain ⟨h1, h2⟩ := mem_zip_fst h
  exact ⟨h1, List.mem_of_mem_tail h2⟩

theorem zip_tail_rel {R : Int × Int → Int × Int → Prop} :
    ∀ (S : List (Int × Int)), List.Pairwise R S →
      ∀ pq ∈ S.zip S.tail, R pq.1 pq.2 := by
  intro S
  induction S with
  | nil => intro _ pq hpq; simp at hpq
  | cons p t ih =>
    intro hpw pq hpq
    rw [List.pairwise_cons] at hpw
    cases t with
    | nil => simp at hpq
    | cons q t2 =>
      simp only [List.tail_cons, List.zip_cons_cons, List.mem_cons] at hpq
      rcases hpq with rfl | h1
      · exact hpw.1 q (List.mem_cons_self _ _)
      · exact ih hpw.2 pq (by simpa using h1)

theorem zip_cover :
    ∀ (S : List (Int × Int)), List.Pairwise (fun p q : Int × Int => p.1 < q.1) S →
      ∀ j : Int, (∃ a ∈ S, a.1 < j) → (∃ b ∈ S, j ≤ b.1) →
      ∃ pq ∈ S.zip S.tail, pq.1.1 < j ∧ j ≤ pq.2.1 := by
  intro S
  induction S with
  | nil => intro _ j ha _; simp at ha
  | cons p t ih =>
    intro hpw j ha hb
    rw [List.pairwise_cons] at hpw
    cases t with
    | nil =>
      exfalso
      obtain ⟨a, haMem, haLt⟩ := ha
      obtain ⟨b, hbMem, hbLe⟩ := hb
      simp at haMem hbMem
      subst haMem
      subst hbMem
      omega
    | cons q t2 =>
      by_cases hj : j ≤ q.1
      · have hp : p.1 < j := by
          obtain ⟨a, haMem, haLt⟩ := ha
          rcases List.mem_cons.1 haMem with rfl | h1
          · exact haLt
          · have := hpw.1 a h1
            omega
        exact ⟨(p, q), by simp [List.zip_cons_cons], hp, hj⟩
      · push_neg at hj
        have ha2 : ∃ a ∈ q :: t2, a.1 < j := ⟨q, List.mem_cons_self _ _, hj⟩
        have hb2 : ∃ b ∈ q :: t2, j ≤ b.1 := by
          obtain ⟨b, hbMem, hbLe⟩ := hb
          rcases List.mem_cons.1 hbMem with rfl | h1
          · have := hpw.1 q (List.mem_cons_self _ _)
            omega
          · exact ⟨b, h1, hbLe⟩
        obtain ⟨pq, hmem, h1, h2⟩ := ih hpw.2 j ha2 hb2
        refine ⟨pq, ?_, h1, h2⟩
        simp only [List.tail_cons, List.zip_cons_cons, List.mem_cons]
        right
        simpa using hmem

theorem segment_fold_eq (f : Int → Int) (b : Int) :
    ∀ (n : Nat) (a : Int) (acc : List (Int × Int)), (b - a).toNat = n →
      (∀ p ∈ acc, p.1 < a) →
      (intRange a b).foldl (fun m j => dictInsert m j (f j)) acc
        = acc ++ (intRange a b).map (fun j => (j, f j)) := by
  intro n
  induction n with
  | zero =>
    intro a acc hn _
    rw [intRange_eq_nil (by omega)]
    simp
  | succ n ih =>
    intro a acc hn hub
    rw [intRange_cons (by omega)]
    rw [List.foldl_cons, List.map_cons]
    rw [dictInsert_append acc a (f a) (fun p hp => ne_of_lt (hub p hp))]
    rw [ih (a + 1) (acc ++ [(a, f a)]) (by omega) ?ub]
    · rw [List.append_assoc]
      rfl
    case ub =>
      intro p hp
      rcases List.mem_append.1 hp with h1 | h1
      · exact lt_trans (hub p h1) (by omega)
      · simp at h1
        rw [h1]
        simp

theorem cbm_fold_eq :
    ∀ (S : List (Int × Int)) (acc : List (Int × Int)),
      List.Pairwise (fun p q : Int × Int => p.1 < q.1) S →
      (∀ q ∈ S, ∀ p ∈ acc, p.1 < q.1 + 1) →
      (S.zip S.tail).foldl
        (fun m pq =>
          (intRange (pq.1.1 + 1) (pq.2.1 + 1)).foldl
            (fun acc2 j =>
              dictInsert acc2 j
                (scale_ranged_value_to_int_range (pq.1.1, pq.2.1) (pq.1.2, pq.2.2) j))
            m)
        acc
      = acc ++ forwardBlocks S := by
  intro S
  induction S with
  | nil => intro acc _ _; simp [forwardBlocks]
  | cons p t ih =>
    intro acc hpw hub
    cases t with
    | nil => simp [forwardBlocks]
    | cons q t2 =>
      rw [List.pairwise_cons] at hpw
      have hpq : p.1 < q.1 := hpw.1 q (List.mem_cons_self _ _)
      simp only [List.tail_cons, List.zip_cons_cons, List.foldl_cons, forwardBlocks]
      rw [segment_fold_eq
        (fun j => scale_ranged_value_to_int_range (p.1, q.1) (p.2, q.2) j)
        (q.1 + 1) (q.1 + 1 - (p.1 + 1)).toNat (p.1 + 1) acc rfl ?ub1]
      case ub1 =>
        intro x hx
        have := hub p (List.mem_cons_self _ _) x hx
        omega
      have hqle : ∀ r ∈ q :: t2, q.1 ≤ r.1 := by
        intro r hr
        rcases List.mem_cons.1 hr with rfl | h4
        · exact le_refl _
        · exact le_of_lt ((List.pairwise_cons.1 hpw.2).1 r h4)
      have ih2 := ih
        (acc ++ List.map
          (fun j => (j, scale_ranged_value_to_int_range (p.1, q.1) (p.2, q.2) j))
          (intRange (p.1 + 1) (q.1 + 1)))
        hpw.2 ?ub2
      case ub2 =>
        intro r hr x hx
        rcases List.mem_append.1 hx with h1 | h1
        · have h2 := hub p (List.mem_cons_self _ _) x h1
          have h3 := hqle r hr
          omega
        · obtain ⟨j, hj, rfl⟩ := List.mem_map.1 h1
          rw [mem_intRange] at hj
          have h3 := hqle r hr
          simp only []
          omega
      simp only [List.tail_cons] at ih2
      rw [ih2, List.append_assoc]

theorem create_brightness_map_normal (S : List (Int × Int))
    (hpw : List.Pairwise (fun p q : Int × Int => p.1 < q.1) S)
    (hkey0 : ∀ p ∈ S, 0 ≤ p.1) :
    create_brightness_map S = (0, 0) :: forwardBlocks S := by
  unfold create_brightness_map
  rw [cbm_fold_eq S [(0, 0)] hpw ?ub]
  · rfl
  case ub =>
    intro q hq p hp
    simp at hp
    rw [hp]
    have := hkey0 q hq
    simp
    omega

theorem dictGet_block (f : Int → Int) (b : Int) :
    ∀ (n : Nat) (a : Int) (k : Int), (b - a).toNat = n →
      dictGet ((intRange a b).map (fun j => (j, f j))) k
        = if a ≤ k ∧ k < b then some (f k) else none := by
  intro n
  induction n with
  | zero =>
    intro a k hn
    rw [intRange_eq_nil (by omega), if_neg (by omega)]
    rfl
  | succ n ih =>
    intro a k hn
    rw [intRange_cons (by omega), List.map_cons, dictGet_cons]
    by_cases hk : a = k
    · rw [if_pos hk, if_pos (by omega)]
      rw [hk]
    · rw [if_neg hk, ih (a + 1) k (by omega)]
      by_cases h2 : a + 1 ≤ k ∧ k < b
      · rw [if_pos h2, if_pos (by omega)]
      · rw [if_neg h2, if_neg (by omega)]

theorem dictGet_forwardBlocks :
    ∀ (S : List (Int × Int)), List.Pairwise (fun p q : Int × Int => p.1 < q.1) S →
      ∀ pq ∈ S.zip S.tail, ∀ j : Int, pq.1.1 < j → j ≤ pq.2.1 →
      dictGet (forwardBlocks S) j
        = some (scale_ranged_value_to_int_range (pq.1.1, pq.2.1) (pq.1.2, pq.2.2) j) := by
  intro S
  induction S with
  | nil => intro _ pq hpq; simp at hpq
  | cons p t ih =>
    intro hpw pq hpq j hj1 hj2
    cases t with
    | nil => simp at hpq
    | cons q t2 =>
      rw [List.pairwise_cons] at hpw
      simp only [List.tail_cons, List.zip_cons_cons, List.mem_cons] at hpq
      simp only [forwardBlocks]
      rcases hpq with rfl | h1
      · dsimp only at hj1 hj2 ⊢
        apply dictGet_append_left
        rw [dictGet_block
          (fun i => scale_ranged_value_to_int_range (p.1, q.1) (p.2, q.2) i)
          (q.1 + 1) (q.1 + 1 - (p.1 + 1)).toNat (p.1 + 1) j rfl]
        rw [if_pos (by constructor <;> omega)]
      · have hq1 : q.1 < j := by
          have hmem := (mem_zip_fst h1).1
          have hle : q.1 ≤ pq.1.1 := by
            rcases List.mem_cons.1 hmem with h2 | h2
            · rw [h2]
            · exact le_of_lt ((List.pairwise_cons.1 hpw.2).1 _ h2)
          omega
        rw [dictGet_append_right]
        · exact ih hpw.2 pq (by simpa using h1) j hj1 hj2
        · rw [dictGet_block
            (fun i => scale_ranged_value_to_int_range (p.1, q.1) (p.2, q.2) i)
            (q.1 + 1) (q.1 + 1 - (p.1 + 1)).toNat (p.1 + 1) j rfl]
          rw [if_neg (by omega)]

theorem forward_segment (S : List (Int × Int)) (hf : PreparedFacts S) :
    ∀ pq ∈ S.zip S.tail, ∀ j : Int, pq.1.1 < j → j ≤ pq.2.1 →
      dictGet (create_brightness_map S) j
        = some (scale_ranged_value_to_int_range (pq.1.1, pq.2.1) (pq.1.2, pq.2.2) j) := by
  intro pq hpq j hj1 hj2
  rw [create_brightness_map_normal S hf.pairwise hf.key_lb, dictGet_cons]
  rw [if_neg ?ne]
  case ne =>
    have := hf.key_lb pq.1 (zip_tail_mem hpq).1
    omega
  exact dictGet_forwardBlocks S hf.pairwise pq hpq j hj1 hj2

theorem forward_zero (S : List (Int × Int)) (hf : PreparedFacts S) :
    dictGet (create_brightness_map S) 0 = some 0 := by
  rw [create_brightness_map_normal S hf.pairwise hf.key_lb, dictGet_cons, if_pos rfl]

theorem forward_total (S : List (Int × Int)) (hf : PreparedFacts S) :
    ∀ j : Int, 0 ≤ j → j ≤ 255 →
      ∃ v : Int, dictGet (create_brightness_map S) j = some v ∧ 0 ≤ v ∧ v ≤ 255 := by
  intro j hj0 hj255
  by_cases hj : j = 0
  · subst hj
    exact ⟨0, forward_zero S hf, le_refl 0, by norm_num⟩
  · obtain ⟨y, hy⟩ := hf.mem_top
    obtain ⟨pq, hpq, h1, h2⟩ := zip_cover S hf.pairwise j
      ⟨(0, 0), hf.mem_zero, by simp; omega⟩ ⟨(255, y), hy, by simp; omega⟩
    obtain ⟨hm1, hm2⟩ := zip_tail_mem hpq
    have hb := scale_bounds pq.1.1 pq.2.1 pq.1.2 pq.2.2 j
      (zip_tail_rel S hf.pairwise pq hpq) h1 h2
      (hf.val_lb _ hm1) (hf.val_ub _ hm1) (hf.val_lb _ hm2) (hf.val_ub _ hm2)
    exact ⟨_, forward_segment S hf pq hpq j h1 h2, hb.1, hb.2⟩

theorem mem_forwardBlocks :
    ∀ (S : List (Int × Int)) (x : Int × Int), x ∈ forwardBlocks S →
      ∃ pq ∈ S.zip S.tail, ∃ j : Int, pq.1.1 < j ∧ j ≤ pq.2.1 ∧
        x = (j, scale_ranged_value_to_int_range (pq.1.1, pq.2.1) (pq.1.2, pq.2.2) j) := by
  intro S
  induction S with
  | nil => intro x hx; simp [forwardBlocks] at hx
  | cons p t ih =>
    intro x hx
    cases t with
    | nil => simp [forwardBlocks] at hx
    | cons q t2 =>
      simp only [forwardBlocks] at hx
      rcases List.mem_append.1 hx with h1 | h1
      · obtain ⟨j, hj, rfl⟩ := List.mem_map.1 h1
        rw [mem_intRange] at hj
        exact ⟨(p, q), by simp [List.zip_cons_cons], j, by simp; omega, by simp; omega, rfl⟩
      · obtain ⟨pq, hpq, j, h2, h3, h4⟩ := ih x h1
        refine ⟨pq, ?_, j, h2, h3, h4⟩
        simp only [List.tail_cons, List.zip_cons_cons, List.mem_cons]
        right
        simpa using hpq

theorem forward_entries_bounds (S : List (Int × Int)) (hf : PreparedFacts S) :
    ∀ x ∈ create_brightness_map S, 0 ≤ x.2 ∧ x.2 ≤ 255 := by
  intro x hx
  rw [create_brightness_map_normal S hf.pairwise hf.key_lb] at hx
  rcases List.mem_cons.1 hx with rfl | h1
  · norm_num
  · obtain ⟨pq, hpq, j, h2, h3, rfl⟩ := mem_forwardBlocks S x h1
    obtain ⟨hm1, hm2⟩ := zip_tail_mem hpq
    have hb := scale_bounds pq.1.1 pq.2.1 pq.1.2 pq.2.2 j
      (zip_tail_rel S hf.pairwise pq hpq) h2 h3
      (hf.val_lb _ hm1) (hf.val_ub _ hm1) (hf.val_lb _ hm2) (hf.val_ub _ hm2)
    simpa using hb

theorem exists_pred_pair :
    ∀ (S : List (Int × Int)) (x : Int × Int), x ∈ S →
      (∃ t, S = x :: t) ∨ ∃ pq ∈ S.zip S.tail, pq.2 = x := by
  intro S
  induction S with
  | nil => intro x hx; simp at hx
  | cons p t ih =>
    intro x hx
    rcases List.mem_cons.1 hx with rfl | h1
    · exact Or.inl ⟨t, rfl⟩
    · rcases ih x h1 with ⟨t2, rfl⟩ | ⟨pq, hpq, h2⟩
      · exact Or.inr ⟨(p, x), by simp [List.zip_cons_cons], rfl⟩
      · refine Or.inr ⟨pq, ?_, h2⟩
        cases t with
        | nil => simp at hpq
        | cons q t2 =>
          simp only [List.tail_cons, List.zip_cons_cons, List.mem_cons]
          right
          simpa using hpq

theorem forward_breakpoint (S : List (Int × Int)) (hf : PreparedFacts S) :
    ∀ x ∈ S, dictGet (create_brightness_map S) x.1 = some x.2 := by
  intro x hx
  rcases exists_pred_pair S x hx with ⟨t, hS⟩ | ⟨pq, hpq, rfl⟩
  · have hx0 : x = (0, 0) := by
      have hmem0 := hf.mem_zero
      rw [hS] at hmem0
      rcases List.mem_cons.1 hmem0 with h1 | h1
      · exact h1.symm
      · exfalso
        have hpw := hf.pairwise
        rw [hS, List.pairwise_cons] at hpw
        have hlt := hpw.1 (0, 0) h1
        have hge := hf.key_lb x (hS ▸ List.mem_cons_self x t)
        simp at hlt
        omega
    rw [hx0]
    exact forward_zero S hf
  · have hlt := zip_tail_rel S hf.pairwise pq hpq
    rw [forward_segment S hf pq hpq pq.2.1 hlt (le_refl _)]
    rw [scale_right_endpoint pq.1.1 pq.2.1 pq.1.2 pq.2.2 hlt]

/-! ### Reverse map: domain, growth and seeding -/

theorem foldl_sameDom {α : Type}
    (step : (Int → Option (List Int)) → α → (Int → Option (List Int)))
    (hstep : ∀ m a x, ((step m a) x).isSome = (m x).isSome) :
    ∀ (l : List α) (m : Int → Option (List Int)) (x : Int),
      ((l.foldl step m) x).isSome = (m x).isSome := by
  intro l
  induction l with
  | nil => intro m x; rfl
  | cons a t ih =>
    intro m x
    rw [List.foldl_cons, ih (step m a) x, hstep m a x]

theorem revAppend_sameDom (m : Int → Option (List Int)) (key val x : Int) :
    ((revAppend m key val) x).isSome = (m x).isSome := by
  unfold revAppend
  split_ifs with h
  · subst h
    cases m x <;> rfl
  · rfl

theorem revAppendIfAbsent_sameDom (m : Int → Option (List Int)) (key val x : Int) :
    ((revAppendIfAbsent m key val) x).isSome = (m x).isSome := by
  unfold revAppendIfAbsent
  split_ifs with h
  · subst h
    cases m x <;> rfl
  · rfl

theorem foldl_grows {α : Type}
    (step : (Int → Option (List Int)) → α → (Int → Option (List Int)))
    (hstep : ∀ m a, listGrows m (step m a)) :
    ∀ (l : List α) (m : Int → Option (List Int)), listGrows m (l.foldl step m) := by
  intro l
  induction l with
  | nil => intro m x a h; exact h
  | cons b t ih =>
    intro m x a h
    rw [List.foldl_cons]
    exact ih (step m b) x a (hstep m b x a h)

theorem revAppend_grows (m : Int → Option (List Int)) (key val : Int) :
    listGrows m (revAppend m key val) := by
  intro x a h
  unfold revAppend
  split_ifs with hx
  · subst hx
    cases hm : m x with
    | none => rw [hm] at h; simp at h
    | some l0 =>
      rw [hm] at h
      simp at h ⊢
      exact Or.inl h
  · exact h

theorem revAppendIfAbsent_grows (m : Int → Option (List Int)) (key val : Int) :
    listGrows m (revAppendIfAbsent m key val) := by
  intro x a h
  unfold revAppendIfAbsent
  split_ifs with hx
  · subst hx
    cases hm : m x with
    | none => rw [hm] at h; simp at h
    | some l0 =>
      rw [hm] at h
      simp at h ⊢
      split_ifs with hv
      · exact h
      · simp
        exact Or.inl h
  · exact h

theorem seed_mem :
    ∀ (l : List (Int × Int)) (m : Int → Option (List Int)) (p : Int × Int),
      p ∈ l → (m p.2).isSome →
      p.1 ∈ ((l.foldl (fun m2 kv => revAppend m2 kv.2 kv.1) m) p.2).getD [] := by
  intro l
  induction l with
  | nil => intro m p h; simp at h
  | cons b t ih =>
    intro m p hp hsome
    rw [List.foldl_cons]
    rcases List.mem_cons.1 hp with rfl | h1
    · apply foldl_grows _ (fun m2 kv => revAppend_grows m2 kv.2 kv.1) t
        (revAppend m p.2 p.1) p.2 p.1
      unfold revAppend
      rw [if_pos rfl]
      cases hm : m p.2 with
      | none => rw [hm] at hsome; simp at hsome
      | some l0 => simp
    · apply ih (revAppend m b.2 b.1) p h1
      rw [revAppend_sameDom]
      exact hsome

theorem reverse_map_isSome (config lightener_levels : List (Int × Int)) (x : Int) :
    ((create_reverse_brightness_map config lightener_levels) x).isSome
      ↔ (0 ≤ x ∧ x < 256) := by
  simp only [create_reverse_brightness_map]
  rw [foldl_sameDom _ ?houter, foldl_sameDom _ ?hseed]
  case hseed =>
    intro m a y
    exact revAppend_sameDom m a.2 a.1 y
  case houter =>
    intro m a y
    split_ifs with h h2
    · exact foldl_sameDom _
        (fun m2 j y2 => revAppendIfAbsent_sameDom m2 j
          (scale_ranged_value_to_int_range (a.1.2, a.2.2) (a.1.1, a.2.1) j) y2)
        _ m y
    · exact foldl_sameDom _
        (fun m2 j y2 => revAppendIfAbsent_sameDom m2 j
          (scale_ranged_value_to_int_range (a.1.2, a.2.2) (a.1.1, a.2.1) j) y2)
        _ m y
    · rfl
  split_ifs with h
  · simpa using h
  · simpa using h

theorem reverse_map_complete (config lightener_levels : List (Int × Int)) :
    ∀ p ∈ lightener_levels, 0 ≤ p.2 → p.2 < 256 →
      p.1 ∈ ((create_reverse_brightness_map config lightener_levels) p.2).getD [] := by
  intro p hp h1 h2
  simp only [create_reverse_brightness_map]
  refine foldl_grows _ ?hgrow _ _ p.2 p.1 ?hseedmem
  case hgrow =>
    intro m a
    split_ifs with h h2
    · exact foldl_grows _
        (fun m2 j => revAppendIfAbsent_grows m2 j
          (scale_ranged_value_to_int_range (a.1.2, a.2.2) (a.1.1, a.2.1) j)) _ m
    · exact foldl_grows _
        (fun m2 j => revAppendIfAbsent_grows m2 j
          (scale_ranged_value_to_int_range (a.1.2, a.2.2) (a.1.1, a.2.1) j)) _ m
    · exact fun x a2 hmem => hmem
  case hseedmem =>
    apply seed_mem lightener_levels _ p hp
    simp [h1, h2]

/-! ### Helper lemmas for the claims -/

theorem pairwise_key_inj :
    ∀ (S : List (Int × Int)), List.Pairwise (fun p q : Int × Int => p.1 < q.1) S →
      ∀ x ∈ S, ∀ y ∈ S, x.1 = y.1 → x = y := by
  intro S
  induction S with
  | nil => intro _ x hx; simp at hx
  | cons a t ih =>
    intro hpw x hx y hy hxy
    rw [List.pairwise_cons] at hpw
    rcases List.mem_cons.1 hx with rfl | hx2
    · rcases List.mem_cons.1 hy with rfl | hy2
      · rfl
      · exfalso
        have := hpw.1 y hy2
        omega
    · rcases List.mem_cons.1 hy with rfl | hy2
      · exfalso
        have := hpw.1 x hx2
        omega
      · exact ih hpw.2 x hx2 y hy2 hxy

/-! ### The claims -/

/-- C1: for every prepared configuration (output of the Range Preparer on a
schema-valid raw configuration) and each consecutive breakpoint pair
(v0, p0), (v1, p1) with v0 < v1, and for every integer i with v0 < i ≤ v1,
the forward map satisfies
Forward(i) = round(p0 + (p1 - p0) * (i - v0) / (v1 - v0)),
with round the half-to-even rounding of the exact rational. -/
theorem C1_forward_interpolation (raw : List (Int × Int)) (hv : ValidConfig raw)
    (v0 p0 v1 p1 : Int)
    (hpair : ((v0, p0), (v1, p1)) ∈ (prepare_brightness_config raw).zip
      (prepare_brightness_config raw).tail)
    (hlt : v0 < v1) (i : Int) (h1 : v0 < i) (h2 : i ≤ v1) :
    dictGet (create_brightness_map (prepare_brightness_config raw)) i
      = some (pyRound (p0 * (v1 - v0) + (i - v0) * (p1 - p0)) (v1 - v0)) := by
  have h := forward_segment (prepare_brightness_config raw) (prepared_facts raw hv)
    ((v0, p0), (v1, p1)) hpair i h1 h2
  simpa [scale_ranged_value_to_int_range] using h

theorem C1_forward_interpolation_witness :
    dictGet (create_brightness_map (prepare_brightness_config [(10, 100)])) 13
      = some (pyRound (0 * (26 - 0) + (13 - 0) * (255 - 0)) (26 - 0)) :=
  C1_forward_interpolation [(10, 100)] (by decide) 0 0 26 255 (by decide)
    (by decide) 13 (by decide) (by decide)

/-- C2: for every schema-valid configuration, Forward is defined on every
integer virtual level in [0, 255] with an integer physical value in [0, 255];
Backward is defined (returns a list) on every integer physical level in
[0, 255]; and Backward returns the empty list for a None physical state. -/
theorem C2_totality (raw : List (Int × Int)) (hv : ValidConfig raw)
    (ty : Option String) (eid : String) :
    (∀ v : Int, 0 ≤ v → v ≤ 255 →
      ∃ p : Int, dictGet (create_brightness_map (prepare_brightness_config raw)) v
        = some p ∧ 0 ≤ p ∧ p ≤ 255) ∧
    (∀ p : Int, 0 ≤ p → p ≤ 255 →
      ∃ l : List Int, create_reverse_brightness_map (prepare_brightness_config raw)
        (create_brightness_map (prepare_brightness_config raw)) p = some l) ∧
    translate_brightness_back (mkControlledLight eid raw ty) none = some [] := by
  refine ⟨forward_total _ (prepared_facts raw hv), ?_, rfl⟩
  intro p h1 h2
  exact Option.isSome_iff_exists.1
    ((reverse_map_isSome (prepare_brightness_config raw) _ p).2 ⟨h1, by omega⟩)

theorem C2_totality_witness :
    ∃ p : Int, dictGet (create_brightness_map (prepare_brightness_config [])) 7
      = some p ∧ 0 ≤ p ∧ p ≤ 255 :=
  (C2_totality [] (by decide) none "light.test1").1 7 (by decide) (by decide)

/-- C3: for every schema-valid configuration and every breakpoint (v, p)
present in the prepared configuration, Forward(v) = p exactly; in particular
Forward(0) = 0. -/
theorem C3_breakpoints (raw : List (Int × Int)) (hv : ValidConfig raw) :
    (∀ v p : Int, (v, p) ∈ prepare_brightness_config raw →
      dictGet (create_brightness_map (prepare_brightness_config raw)) v = some p) ∧
    dictGet (create_brightness_map (prepare_brightness_config raw)) 0 = some 0 := by
  refine ⟨?_, forward_zero _ (prepared_facts raw hv)⟩
  intro v p hmem
  exact forward_breakpoint _ (prepared_facts raw hv) (v, p) hmem

theorem C3_breakpoints_witness :
    dictGet (create_brightness_map (prepare_brightness_config [(10, 100)])) 26
      = some 255 :=
  (C3_breakpoints [(10, 100)] (by decide)).1 26 255 (by decide)

/-- C4: for every schema-valid raw configuration, the Range Preparer output
is sorted with strictly increasing (hence unique) virtual keys, has length at
least 2, contains (0, 0), has exactly one virtual-255 entry, which defaults
to (255, 255) when no raw key scales to 255; the empty configuration yields
exactly [(0, 0), (255, 255)]. -/
theorem C4_prepared_invariants (raw : List (Int × Int)) (hv : ValidConfig raw) :
    List.Pairwise (fun p q : Int × Int => p.1 < q.1) (prepare_brightness_config raw) ∧
    2 ≤ (prepare_brightness_config raw).length ∧
    (0, 0) ∈ prepare_brightness_config raw ∧
    (∃ y, (255, y) ∈ prepare_brightness_config raw) ∧
    (∀ y y2 : Int, (255, y) ∈ prepare_brightness_config raw →
      (255, y2) ∈ prepare_brightness_config raw → y = y2) ∧
    ((∀ p ∈ raw, value_to_brightness (1, 100) p.1 ≠ 255) →
      (255, 255) ∈ prepare_brightness_config raw) ∧
    prepare_brightness_config [] = [(0, 0), (255, 255)] := by
  have hf := prepared_facts raw hv
  have hlen : 2 ≤ (prepare_brightness_config raw).length := by
    obtain ⟨y, hy⟩ := hf.mem_top
    have h0 := hf.mem_zero
    rcases hS : prepare_brightness_config raw with _ | ⟨a, _ | ⟨b, t⟩⟩
    · rw [hS] at h0
      simp at h0
    · rw [hS] at h0 hy
      simp at h0 hy
      rw [← h0] at hy
      simp at hy
    · simp only [List.length_cons]
      omega
  refine ⟨hf.pairwise, hlen, hf.mem_zero, hf.mem_top, ?_, ?_, by decide⟩
  · intro y y2 hy hy2
    have := pairwise_key_inj _ hf.pairwise (255, y) hy (255, y2) hy2 rfl
    simpa using this
  · exact prepared_default_top raw hv

theorem C4_prepared_invariants_witness :
    (0, 0) ∈ prepare_brightness_config [(50, 0)] :=
  (C4_prepared_invariants [(50, 0)] (by decide)).2.2.1

/-- C5 counterexample: the Range Preparer does not use the scaling formula
round((255 - 1) * (x - 1) / (100 - 1) + 1) stated in the claim: on the
configured entry 10 -> 100 (percent), the code produces key 26 while the
claimed formula yields 24. -/
theorem C5_counterexample :
    translate_config_to_brightness [(10, 100)]
      ≠ [(specScaledValue 10, specScaledValue 100)] ∧
    specScaledValue 10 = 24 ∧
    translate_config_to_brightness [(10, 100)] = [(26, 255)] := by
  refine ⟨by decide, by decide, by decide⟩

/-- C5 amended: the Range Preparer converts every configured key and value
from the percent domain by scaled = round(x * 255 / 100) (the states-in-range
scaling of homeassistant value_to_brightness with source (1, 100) and target
(1, 255)), with the single exception that a physical value of exactly 0 maps
to 0. -/
theorem C5_amended_scaling (raw : List (Int × Int)) (hv : ValidConfig raw) :
    (∀ x : Int, value_to_brightness (1, 100) x = pyRound (255 * x) 100) ∧
    ∀ p ∈ raw, (pyRound (255 * p.1) 100,
        if p.2 = 0 then 0 else pyRound (255 * p.2) 100)
      ∈ translate_config_to_brightness raw := by
  refine ⟨value_to_brightness_eq, ?_⟩
  intro p hp
  rw [translate_config_eq_map raw (scaled_keys_nodup raw hv)]
  refine List.mem_map.2 ⟨p, hp, ?_⟩
  simp [scaleEntry, value_to_brightness_eq]

theorem C5_amended_scaling_witness :
    (pyRound (255 * 10) 100, if (100 : Int) = 0 then 0 else pyRound (255 * 100) 100)
      ∈ translate_config_to_brightness [(10, 100)] :=
  (C5_amended_scaling [(10, 100)] (by decide)).2 (10, 100) (by decide)

/-- C6: for every schema-valid configuration whose prepared breakpoints are
monotonically increasing in the physical axis as well, and every virtual
level v in [0, 255], the list Backward(Forward(v)) contains v. -/
theorem C6_roundtrip_membership (raw : List (Int × Int)) (hv : ValidConfig raw)
    (hmono : List.Pairwise (fun p q : Int × Int => p.2 ≤ q.2)
      (prepare_brightness_config raw))
    (v p : Int) (hv0 : 0 ≤ v) (hv255 : v ≤ 255)
    (hfwd : dictGet (create_brightness_map (prepare_brightness_config raw)) v
      = some p) :
    ∃ l : List Int,
      create_reverse_brightness_map (prepare_brightness_config raw)
        (create_brightness_map (prepare_brightness_config raw)) p = some l ∧
      v ∈ l := by
  have hf := prepared_facts raw hv
  have hmem := dictGet_mem hfwd
  have hb := forward_entries_bounds _ hf (v, p) hmem
  simp only at hb
  have hcomp := reverse_map_complete (prepare_brightness_config raw)
    (create_brightness_map (prepare_brightness_config raw)) (v, p) hmem
    (by simpa using hb.1) (by simp; omega)
  have hsome := (reverse_map_isSome (prepare_brightness_config raw)
    (create_brightness_map (prepare_brightness_config raw)) p).2
    ⟨hb.1, by omega⟩
  obtain ⟨l, hl⟩ := Option.isSome_iff_exists.1 hsome
  refine ⟨l, hl, ?_⟩
  simpa [hl] using hcomp

theorem C6_roundtrip_membership_witness :
    ∃ l : List Int,
      create_reverse_brightness_map (prepare_brightness_config [])
        (create_brightness_map (prepare_brightness_config [])) 5 = some l ∧
      (5 : Int) ∈ l :=
  C6_roundtrip_membership [] (by decide) (by decide) 5 5 (by decide) (by decide)
    (by decide)

/-- C7: for the configuration {"100": "0", "10": "10", "50": "100"} (in its
Python dict insertion order), Forward(255) = 0 and Backward(0) contains both
0 and 255. -/
theorem C7_nonmonotonic_example :
    dictGet (create_brightness_map
      (prepare_brightness_config [(100, 0), (10, 10), (50, 100)])) 255 = some 0 ∧
    ∃ l : List Int,
      create_reverse_brightness_map
        (prepare_brightness_config [(100, 0), (10, 10), (50, 100)])
        (create_brightness_map
          (prepare_brightness_config [(100, 0), (10, 10), (50, 100)])) 0 = some l ∧
      (0 : Int) ∈ l ∧ (255 : Int) ∈ l := by
  refine ⟨by decide, [0, 255], by decide, by decide, by decide⟩

/-- C8: for a controlled light of on/off type and any configuration,
translate_brightness returns 0 exactly when the forward map gives 0 and 255
otherwise (never an intermediate value); the on/off backward map agrees with
the plain backward map at physical level 0; and for every j in 1..255 the
on/off backward map holds the fixed list of every virtual level in 1..255
not associated with physical level 0. -/
theorem C8_onoff_degeneration (raw : List (Int × Int)) (eid : String) :
    (∀ b : Int,
      translate_brightness (mkControlledLight eid raw (some TYPE_ONOFF)) b
        = some (if dictGet (mkControlledLight eid raw (some TYPE_ONOFF)).levels b
            = some 0 then 0 else 255)) ∧
    (mkControlledLight eid raw (some TYPE_ONOFF)).to_lightener_levels_on_off 0
      = (mkControlledLight eid raw (some TYPE_ONOFF)).to_lightener_levels 0 ∧
    (∀ j : Int, 1 ≤ j → j ≤ 255 →
      ∃ l : List Int,
        (mkControlledLight eid raw (some TYPE_ONOFF)).to_lightener_levels_on_off j
          = some l ∧
        ∀ i : Int, i ∈ l ↔ (1 ≤ i ∧ i ≤ 255 ∧
          i ∉ ((mkControlledLight eid raw (some TYPE_ONOFF)).to_lightener_levels 0).getD [])) := by
  refine ⟨?_, ?_, ?_⟩
  · intro b
    simp [translate_brightness, mkControlledLight]
  · simp [mkControlledLight, create_reverse_brightness_map_on_off]
  · intro j h1 h2
    refine ⟨(intRange 1 256).filter
      (fun i => !(decide (i ∈ ((mkControlledLight eid raw (some TYPE_ONOFF)).to_lightener_levels 0).getD []))), ?_, ?_⟩
    · simp only [mkControlledLight, create_reverse_brightness_map_on_off]
      rw [if_neg (by omega), if_pos ⟨h1, by omega⟩]
    · intro i
      rw [List.mem_filter, mem_intRange]
      simp only [Bool.not_eq_true', decide_eq_false_iff_not, mkControlledLight]
      constructor
      · rintro ⟨⟨ha, hb⟩, hc⟩
        exact ⟨ha, by omega, hc⟩
      · rintro ⟨ha, hb, hc⟩
        exact ⟨⟨ha, by omega⟩, hc⟩

theorem C8_onoff_degeneration_witness :
    ∃ l : List Int,
      (mkControlledLight "light.test_onoff" [] (some TYPE_ONOFF)).to_lightener_levels_on_off 7
        = some l ∧
      ∀ i : Int, i ∈ l ↔ (1 ≤ i ∧ i ≤ 255 ∧
        i ∉ ((mkControlledLight "light.test_onoff" [] (some TYPE_ONOFF)).to_lightener_levels 0).getD []) :=
  (C8_onoff_degeneration [] "light.test_onoff").2.2 7 (by decide) (by decide)

/-- C9: the per-entity dispatch loop of LightenerLight.async_turn_on performs
sequential blocking service calls with no per-target exception handling, so
an exception raised while commanding the first controlled light prevents the
command to the second from being attempted. Evaluated at the failing input of
the repository's own test test_turn_on_resilient_to_single_failure (two
lights, the call to light.test1 raises): only light.test1 is attempted and
the error escapes, while the test expects both lights to be attempted. -/
theorem C9_dispatch_aborts :
    turn_on_dispatch_loop boomCall ["light.test1", "light.test2"]
      = (["light.test1"], some "boom") ∧
    "light.test2" ∉ (turn_on_dispatch_loop boomCall ["light.test1", "light.test2"]).1 := by
  exact ⟨rfl, by decide⟩

/-- C10: during turn-on dispatch, a controlled light whose translated
brightness is 0 receives a turn_off service call carrying only the transition
attribute; for any other translated brightness the light receives a turn_on
call with the translated brightness set. -/
theorem C10_zero_turns_off (e : LightenerControlledLight) (b : Int)
    (data : TurnOnData) :
    (translate_brightness e b = some 0 →
      dispatch_for_entity e (some b) data =
        { service := SERVICE_TURN_OFF, brightness := none,
          transition := data.transition, others := [], entity_id := e.entity_id }) ∧
    (translate_brightness e b ≠ some 0 →
      (dispatch_for_entity e (some b) data).service = SERVICE_TURN_ON ∧
      (dispatch_for_entity e (some b) data).brightness = translate_brightness e b) := by
  constructor
  · intro h
    simp [dispatch_for_entity, h]
  · intro h
    simp [dispatch_for_entity, h]

theorem C10_zero_turns_off_witness :
    (dispatch_for_entity (mkControlledLight "light.test1" [(50, 0)] none) (some 1)
      ⟨none, some 10, []⟩ =
      { service := SERVICE_TURN_OFF, brightness := none, transition := some 10,
        others := [], entity_id := "light.test1" }) ∧
    ((dispatch_for_entity (mkControlledLight "light.test1" [(50, 0)] none) (some 192)
      ⟨none, none, []⟩).service = SERVICE_TURN_ON ∧
    (dispatch_for_entity (mkControlledLight "light.test1" [(50, 0)] none) (some 192)
      ⟨none, none, []⟩).brightness
      = translate_brightness (mkControlledLight "light.test1" [(50, 0)] none) 192) :=
  ⟨(C10_zero_turns_off (mkControlledLight "light.test1" [(50, 0)] none) 1
      ⟨none, some 10, []⟩).1 (by decide),
   (C10_zero_turns_off (mkControlledLight "light.test1" [(50, 0)] none) 192
      ⟨none, none, []⟩).2 (by decide)⟩
